import Mathlib

/-!
Verification development for the `bert_deid` window-splitting and
prediction-realignment core (`bert_deid/model/transformer.py` and
`bert_deid/model.py`).

The Python code is shallowly embedded:

* numpy arrays become `List`s; `np.unique(xs, return_index=True)` is modelled
  by sorting the distinct values and taking the first-occurrence index of each;
* the tokenizer is an external collaborator: its output (per-token start/stop
  character offsets and subword-continuation flags) is a parameter;
* Python `dict` lookup (which raises `KeyError` on a missing key) becomes an
  `Except`-returning function;
* the in-place mutation of `inputs[i].lengths` in `_logits_to_standoff` is
  modelled by explicit state passing (`processWindow` returns the updated
  feature record).
-/

namespace BertDeid

/-- A candidate standoff span.  In `Transformer._logits_to_standoff` these are
the 4-element lists `[pred_prob[i, p], pred_label[p], offsets[p], lengths[p]]`.
Logit scores are modelled as integers. -/
structure Span where
  prob : Int
  label : String
  offset : Nat
  length : Int
deriving DecidableEq, Inhabited

/-- Model of `np.unique(xs, return_index=True)` restricted to the index array
the code uses: the distinct values of `xs` in ascending order, each replaced by
the index of its first occurrence in `xs`. -/
def npUniqueFirstIdx (xs : List Nat) : List Nat :=
  (List.insertionSort (· ≤ ·) xs.dedup).map (fun v => xs.indexOf v)

/-- Embedding of the deduplication step of `Transformer._logits_to_standoff`
(transformer.py lines 289-294):

    offsets = [l[2] for l in labels]
    offsets.reverse()
    _, unique_idx = np.unique(offsets, return_index=True)
    unique_idx = len(offsets) - unique_idx - 1
    labels = [labels[i] for i in unique_idx]
-/
def dedupLastByOffset (labels : List Span) : List Span :=
  let offsets := (labels.map (fun l => l.offset)).reverse
  let unique_idx := (npUniqueFirstIdx offsets).map (fun i => offsets.length - i - 1)
  unique_idx.map (fun i => labels.getD i default)

/-- One iteration of the loop body of
`for j in reversed(range(len(subwords))): if subwords[j]: lengths[j-1] += lengths[j]`
(transformer.py lines 261-264).  When `j = 0`, Python's `lengths[-1]` addresses
the last element of the list, which the embedding reproduces. -/
def subwordStep (sw : List Bool) (j : Nat) (l : List Int) : List Int :=
  if sw.getD j false then
    l.set (if j = 0 then l.length - 1 else j - 1)
      (l.getD (if j = 0 then l.length - 1 else j - 1) 0 + l.getD j 0)
  else l

/-- The reversed walk: `subwordWalk sw k l` runs the loop body at indices
`k-1, k-2, ..., 0`, highest first, exactly as `reversed(range(k))` does. -/
def subwordWalk (sw : List Bool) : Nat → List Int → List Int
  | 0, l => l
  | k + 1, l => subwordWalk sw k (subwordStep sw k l)

/-- The whole subword length-extension pass of `_logits_to_standoff`
(transformer.py lines 260-264): the loop ranges over `len(subwords)`. -/
def extendLengths (sw : List Bool) (l : List Int) : List Int :=
  subwordWalk sw sw.length l

/-- Model of line 266, `[self.config.id2label[p] for p in pred_id[i, :]]`:
`id2label` is a finite integer-keyed map and Python dict indexing raises
`KeyError` on the first missing key, which the embedding returns as
`Except.error` with the offending id. -/
def mapLabels (id2label : List (Nat × String)) : List Nat → Except Nat (List String)
  | [] => Except.ok []
  | p :: ps =>
    match id2label.lookup p with
    | none => Except.error p
    | some lab =>
      match mapLabels id2label ps with
      | Except.error e => Except.error e
      | Except.ok rest => Except.ok (lab :: rest)

/-- Model of `np.max` over one logits row (0 on an empty row, which does not occur). -/
def rowMax (xs : List Int) : Int :=
  match xs with
  | [] => 0
  | x :: rest => rest.foldl max x

/-- Model of `np.argmax` over one logits row: the index of the first occurrence
of the maximum value. -/
def argmaxIdx (xs : List Int) : Nat :=
  xs.indexOf (rowMax xs)

/-- The fields of the `InputFeatures` dataclass (transformer.py lines 36-49)
read or written by `_logits_to_standoff`.  The always-populated optional
fields are modelled as plain lists; `label_ids` is never used and omitted. -/
structure FeatureL where
  input_ids : List Nat
  attention_mask : List Nat
  token_type_ids : List Nat
  input_subwords : List Bool
  offsets : List Nat
  lengths : List Int
deriving DecidableEq, Inhabited

/-- Per-window body of `Transformer._logits_to_standoff` (transformer.py lines
250-281) for window `i`, given that window's logits row-major matrix:

* `pred_id`/`pred_prob` are the per-position argmax / max of the logits;
* the subword length extension mutates `inputs[i].lengths` in place, modelled
  by returning the updated feature record as the first component;
* `pred_label` converts ids through `id2label` (KeyError becomes `.error`);
* `idxObject` marks positions whose label **equals** `ignore_label`
  (line 268);
* at line 272, `mask` is the feature's `attention_mask`, a plain Python
  `List[int]`, so `(mask == 1)` is the **scalar** `False` (embedded as
  `mask_eq_one := false`); `False & idxObject` then broadcasts to an
  all-`False` array of `idxObject`'s shape, and
  `idxKeep = np.where((mask == 1) & idxObject)[0]` is empty for every input;
* consequently the emission comprehension body never runs; it is embedded
  with the per-position lookups `offsets[p]`, `lengths[p]` (the extended
  lengths) in place of the source's `offsets[i, p]` / `lengths[i, p]`, which
  index the per-window Python lists with a tuple and would raise `TypeError`
  if they were ever evaluated. -/
def processWindow (id2label : List (Nat × String)) (ignore_label : String)
    (logitsRow : List (List Int)) (f : FeatureL) : FeatureL × Except Nat (List Span) :=
  let pred_id := logitsRow.map argmaxIdx
  let pred_prob := logitsRow.map rowMax
  let lengths := extendLengths f.input_subwords f.lengths
  let f' := { f with lengths := lengths }
  match mapLabels id2label pred_id with
  | Except.error e => (f', Except.error e)
  | Except.ok pred_label =>
    let idxObject := pred_label.map (fun p => p == ignore_label)
    let mask_eq_one : Bool := false
    let idxKeep := (List.range idxObject.length).filter
      (fun p => mask_eq_one && idxObject.getD p false)
    (f', Except.ok (idxKeep.map (fun p =>
      ⟨pred_prob.getD p 0, pred_label.getD p "", f.offsets.getD p 0, lengths.getD p 0⟩)))

/-- One token as produced by the external tokenizer adapter
(`tokenizer.tokenize_with_index(text)` returns the parallel arrays `tokens`,
`tokens_sw`, `tokens_idx`; they are embedded as one record list, `start`/`stop`
being the entry of `tokens_idx` and `sw` the entry of `tokens_sw`). -/
structure Tok where
  start : Nat
  stop : Nat
  sw : Bool
deriving DecidableEq, Inhabited

/-- One window example: the code builds `[i, start, stop, text[start:stop]]`
(transformer.py lines 149-153). -/
structure Window where
  idx : Nat
  start : Nat
  stop : Nat
  text : List Char
deriving DecidableEq, Inhabited

/-- Running maximum, the model of `np.maximum.accumulate`. -/
def cummax (m : Nat) : List Nat → List Nat
  | [] => []
  | x :: xs => max m x :: cummax (max m x) xs

/-- Model of `np.where(~mask, np.arange(mask.shape[0]), 0)` for the
subword-continuation mask (transformer.py line 125). -/
def idxSource (sw : List Bool) : List Nat :=
  (List.range sw.length).map (fun j => if sw.getD j false then 0 else j)

/-- The forward-filled index array `np.maximum.accumulate(idx)` line 126. -/
def fillIdx (sw : List Bool) : List Nat :=
  cummax 0 (idxSource sw)

/-- The snapped token start offsets (transformer.py lines 118-127): start
offsets of subword-continuation tokens are replaced by the start offset at the
forward-filled index, `tokens_start[mask] = tokens_start[idx[mask]]`. -/
def snapStarts (tokens : List Tok) : List Nat :=
  let starts := tokens.map Tok.start
  let sw := tokens.map Tok.sw
  let fill := fillIdx sw
  (List.range tokens.length).map
    (fun j => if sw.getD j false then starts.getD (fill.getD j 0) 0 else starts.getD j 0)

/-- Python `range(0, stop, step)` for `step ≥ 1`. -/
def rangeStep0 (stop step : Nat) : List Nat :=
  (List.range ((stop + step - 1) / step)).map (fun k => k * step)

/-- The enumeration loop `for i, (start, stop) in enumerate(seq_offsets):
examples.append([i, start, stop, text[start:stop]])`. -/
def mkExamples (text : List Char) : Nat → List (Nat × Nat) → List Window
  | _, [] => []
  | i, (start, stop) :: rest =>
    ⟨i, start, stop, (text.drop start).take (stop - start)⟩ :: mkExamples text (i + 1) rest

/-- Embedding of `Transformer.split_by_overlap` (transformer.py lines 110-154,
identical in model.py lines 178-222).  The external tokenizer's output is the
`tokens` parameter; the text is a character list (offsets are character
offsets, `text[start:stop]` is `drop`/`take`). -/
def splitByOverlap (text : List Char) (tokens : List Tok)
    (token_step_size sequence_length : Nat) : List Window :=
  if tokens.length = 0 then []
  else
    let tokens_start := snapStarts tokens
    let seq_offsets :=
      if tokens.length ≤ sequence_length then
        [(tokens_start.getD 0 0, text.length)]
      else
        let xs := rangeStep0 (tokens.length - sequence_length) token_step_size
        let last_offset := xs.getLastD 0 + token_step_size
        (xs.map (fun x => (tokens_start.getD x 0, tokens_start.getD (x + sequence_length) 0)))
          ++ [(tokens_start.getD last_offset 0, text.length)]
    mkExamples text 0 seq_offsets

/-- Segment boundaries computed by `Transformer._split_text_into_segments`
(transformer.py lines 156-219), for the full-text encoding `offsets` (per-token
`(start, stop)` character pairs) and subword flags `token_sw` supplied by the
external tokenizer, with `L = self.tokenizer.max_len_single_sentence`.

The function mirrors the source exactly: `seq_len` is computed from
`feature_overlap` (`int((1 - feature_overlap) * L)`) and — as in the source —
never used afterwards; the segment starts come from bucketing non-subword
token start offsets by `start // L` and keeping the first token of each
bucket, and segment `i` spans from its bucket-start offset to the next
bucket-start offset (the last one to `len(text)`). -/
def splitSegBounds (offsets : List (Nat × Nat)) (token_sw : List Bool)
    (textLen L : Nat) (feature_overlap : Option Rat) : List (Nat × Nat) :=
  let seq_len : Nat :=
    match feature_overlap with
    | none => L
    | some f => (((1 : Rat) - f) * (L : Rat)).floor.toNat
  let start_idx := ((offsets.zip token_sw).filter (fun p => !p.2)).map (fun p => p.1)
  let buckets := start_idx.map (fun p => p.1 / L)
  let uidx := npUniqueFirstIdx buckets
  let new_seq_idx := uidx.map (fun i => start_idx.getD i (0, 0))
  let rows := new_seq_idx ++ [(textLen, 0)]
  (List.range new_seq_idx.length).map
    (fun i => ((rows.getD i (0, 0)).1, (rows.getD (i + 1) (0, 0)).1))

section DedupLemmas

/-- Indexing at the mirrored position equals indexing into the reversed list. -/
theorem getD_length_sub (l : List Span) (i : Nat) (hi : i < l.length) :
    l.getD (l.length - i - 1) default = l.reverse.getD i default := by
  have h1 : i < l.reverse.length := by simpa using hi
  rw [List.getD_eq_getElem?_getD, List.getD_eq_getElem?_getD,
    List.getElem?_reverse (by simpa using hi)]
  have : l.length - i - 1 = l.length - 1 - i := by omega
  rw [this]

/-- The element at the first-occurrence index of an offset value `v` is the
first span of the list carrying offset `v`. -/
theorem getD_indexOf_find (zs : List Span) (v : Nat) (hv : v ∈ zs.map Span.offset) :
    ∃ s, zs.find? (fun t => t.offset == v) = some s ∧
      zs.getD ((zs.map Span.offset).indexOf v) default = s ∧ s.offset = v := by
  induction zs with
  | nil => simp at hv
  | cons t zs ih =>
    by_cases h : t.offset = v
    · refine ⟨t, ?_, ?_, h⟩
      · exact List.find?_cons_of_pos _ (by simp [h])
      · simp [List.indexOf_cons_eq _ h]
    · have hv' : v ∈ zs.map Span.offset := by
        simp only [List.map_cons, List.mem_cons] at hv
        rcases hv with h1 | h1
        · exact absurd h1.symm h
        · exact h1
      obtain ⟨s, h1, h2, h3⟩ := ih hv'
      refine ⟨s, ?_, ?_, h3⟩
      · rw [List.find?_cons_of_neg _ (by simp [h]), h1]
      · rw [List.map_cons, List.indexOf_cons_ne _ h]
        simpa [List.getD_cons_succ] using h2

/-- Every sorted distinct offset is realised by the span the dedup step picks:
that span is the first hit in the reversed candidate list, i.e. the **last**
candidate (in input order) with that offset. -/
theorem dedup_pick (labels : List Span) (v : Nat)
    (hv : v ∈ (labels.map (fun l => l.offset)).reverse) :
    ∃ s, labels.reverse.find? (fun t => t.offset == v) = some s ∧
      labels.getD
        (labels.length - ((labels.map (fun l => l.offset)).reverse).indexOf v - 1)
        default = s ∧ s.offset = v := by
  have hrev : (labels.map (fun l => l.offset)).reverse = labels.reverse.map Span.offset := by
    rw [List.map_reverse]
  have hv' : v ∈ labels.reverse.map Span.offset := by rw [← hrev]; exact hv
  obtain ⟨s, h1, h2, h3⟩ := getD_indexOf_find labels.reverse v hv'
  refine ⟨s, h1, ?_, h3⟩
  have hlt : (labels.reverse.map Span.offset).indexOf v < labels.length := by
    have := List.indexOf_lt_length.mpr hv'
    simpa using this
  rw [hrev]
  rw [getD_length_sub labels _ hlt]
  exact h2

end DedupLemmas

/-- Claim C1: for any list of candidate spans concatenated in window order, the
deduplication step's output contains at most one span per distinct offset, and
for every offset that appears among the candidates the surviving span is the
last candidate (by input order) with that offset — i.e. the first hit of that
offset in the reversed candidate list. -/
theorem dedup_keeps_last_per_offset (labels : List Span) :
    ((dedupLastByOffset labels).map Span.offset).Nodup ∧
    ∀ o ∈ labels.map (fun l => l.offset),
      ∃ s, labels.reverse.find? (fun t => t.offset == o) = some s ∧
        s ∈ dedupLastByOffset labels ∧ s.offset = o := by
  classical
  set offs := (labels.map (fun l => l.offset)).reverse with hoffs
  set sv := List.insertionSort (· ≤ ·) offs.dedup with hsv
  have hlen : offs.length = labels.length := by simp [hoffs]
  have hform : dedupLastByOffset labels
      = sv.map (fun v => labels.getD (labels.length - offs.indexOf v - 1) default) := by
    simp only [dedupLastByOffset, npUniqueFirstIdx, List.map_map, ← hoffs, ← hsv, hlen]
    rfl
  have hmemsv : ∀ v, v ∈ sv ↔ v ∈ offs := by
    intro v
    rw [hsv, (List.perm_insertionSort _ offs.dedup).mem_iff]
    exact List.mem_dedup
  have key : ∀ v ∈ sv,
      ∃ s, labels.reverse.find? (fun t => t.offset == v) = some s ∧
        labels.getD (labels.length - offs.indexOf v - 1) default = s ∧ s.offset = v :=
    fun v hv => dedup_pick labels v ((hmemsv v).mp hv)
  constructor
  · have hnd : sv.Nodup :=
      ((List.perm_insertionSort _ offs.dedup).nodup_iff).mpr (List.nodup_dedup _)
    rw [hform, List.map_map]
    have heq : sv.map
        (Span.offset ∘ fun v => labels.getD (labels.length - offs.indexOf v - 1) default)
        = sv.map id := by
      refine List.map_congr_left (fun v hv => ?_)
      obtain ⟨s, -, h2, h3⟩ := key v hv
      simp only [Function.comp_apply, id_eq]
      rw [h2]
      exact h3
    rw [heq, List.map_id]
    exact hnd
  · intro o ho
    have hosv : o ∈ sv := (hmemsv o).mpr (by rw [hoffs, List.mem_reverse]; exact ho)
    obtain ⟨s, h1, h2, h3⟩ := key o hosv
    exact ⟨s, h1, hform ▸ List.mem_map.mpr ⟨o, hosv, h2⟩, h3⟩

/-- Witness for C1 at a concrete candidate list with a duplicated offset 5. -/
theorem dedup_keeps_last_per_offset_witness :
    ((dedupLastByOffset [⟨1, "A", 5, 1⟩, ⟨2, "B", 7, 1⟩, ⟨3, "C", 5, 2⟩]).map Span.offset).Nodup ∧
    ∃ s, ([(⟨1, "A", 5, 1⟩ : Span), ⟨2, "B", 7, 1⟩, ⟨3, "C", 5, 2⟩].reverse.find?
        (fun t => t.offset == 5) = some s ∧
      s ∈ dedupLastByOffset [⟨1, "A", 5, 1⟩, ⟨2, "B", 7, 1⟩, ⟨3, "C", 5, 2⟩] ∧ s.offset = 5) :=
  ⟨(dedup_keeps_last_per_offset [⟨1, "A", 5, 1⟩, ⟨2, "B", 7, 1⟩, ⟨3, "C", 5, 2⟩]).1,
   (dedup_keeps_last_per_offset [⟨1, "A", 5, 1⟩, ⟨2, "B", 7, 1⟩, ⟨3, "C", 5, 2⟩]).2 5 (by decide)⟩

/-- Setting an index to the value already there leaves a list unchanged. -/
theorem list_set_getD_self (l : List Int) (i : Nat) : l.set i (l.getD i 0) = l := by
  induction l generalizing i with
  | nil => rfl
  | cons x xs ih =>
    cases i with
    | zero => rfl
    | succ n => simpa [List.set_cons_succ, List.getD_cons_succ] using ih n

/-- If every subword-continuation position of `l` holds `0`, the reverse walk
leaves `l` unchanged. -/
theorem subwordWalk_fixed (sw : List Bool) (l : List Int)
    (h : ∀ j < sw.length, sw.getD j false = true → l.getD j 0 = 0) :
    ∀ k, k ≤ sw.length → subwordWalk sw k l = l := by
  intro k
  induction k with
  | zero => intro _; rfl
  | succ k ih =>
    intro hk
    have hstep : subwordStep sw k l = l := by
      unfold subwordStep
      by_cases hswk : sw.getD k false
      · rw [if_pos hswk, h k (by omega) hswk, add_zero]
        exact list_set_getD_self l _
      · rw [if_neg hswk]
    show subwordWalk sw k (subwordStep sw k l) = l
    rw [hstep]
    exact ih (by omega)

/-- Claim C7 (amended): the reverse-walk subword length extension is **not**
idempotent in general (see `extend_lengths_not_idempotent`); it is idempotent
on inputs whose extended lengths vanish at every continuation position, since
then the second walk only adds zeros. -/
theorem extend_lengths_idem_of_zero_continuations (sw : List Bool) (l : List Int)
    (h : ∀ j < sw.length, sw.getD j false = true → (extendLengths sw l).getD j 0 = 0) :
    extendLengths sw (extendLengths sw l) = extendLengths sw l :=
  subwordWalk_fixed sw (extendLengths sw l) h sw.length le_rfl

/-- Witness for the amended C7: lengths `[1, 0]` with flags `[false, true]`. -/
theorem extend_lengths_idem_witness :
    (∀ j < ([false, true] : List Bool).length, ([false, true] : List Bool).getD j false = true →
      (extendLengths [false, true] [1, 0]).getD j 0 = 0) ∧
    extendLengths [false, true] (extendLengths [false, true] [1, 0])
      = extendLengths [false, true] [1, 0] :=
  ⟨by decide, extend_lengths_idem_of_zero_continuations [false, true] [1, 0] (by decide)⟩

/-- Claim C7 counterexample: on lengths `[1, 1]` with the second position a
continuation, one application gives `[2, 1]` and a second gives `[3, 1]` — the
extension step is not idempotent and the non-subword position 0 is not stable. -/
theorem extend_lengths_not_idempotent :
    extendLengths [false, true] (extendLengths [false, true] [1, 1])
      ≠ extendLengths [false, true] [1, 1] := by decide

/-- On the first missing id, the label conversion errors out with that id. -/
theorem mapLabels_error_of_missing (id2label : List (Nat × String)) :
    ∀ ids : List Nat, (∃ p ∈ ids, id2label.lookup p = none) →
      ∃ e, mapLabels id2label ids = Except.error e ∧ id2label.lookup e = none := by
  intro ids
  induction ids with
  | nil => rintro ⟨p, hp, -⟩; simp at hp
  | cons p ps ih =>
    rintro ⟨q, hq, hnone⟩
    rcases List.mem_cons.mp hq with rfl | hq'
    · cases hlp : id2label.lookup q with
      | none => exact ⟨q, by simp [mapLabels, hlp], hlp⟩
      | some lab => exact absurd hnone (by simp [hlp])
    · cases hlp : id2label.lookup p with
      | none => exact ⟨p, by simp [mapLabels, hlp], hlp⟩
      | some lab =>
        obtain ⟨e, he, hen⟩ := ih ⟨q, hq', hnone⟩
        exact ⟨e, by simp [mapLabels, hlp, he], hen⟩

/-- Claim C9: if any predicted label id of the window is not present in the
configured id-to-label vocabulary, the standoff conversion aborts with an
explicit error carrying an unmapped id (Python raises `KeyError` at
`self.config.id2label[p]`); it never returns a span list with the unknown id
silently mapped to the non-entity label. -/
theorem unknown_label_id_aborts (id2label : List (Nat × String)) (ignore_label : String)
    (logitsRow : List (List Int)) (f : FeatureL)
    (h : ∃ p ∈ logitsRow.map argmaxIdx, id2label.lookup p = none) :
    ∃ e, (processWindow id2label ignore_label logitsRow f).2 = Except.error e ∧
      id2label.lookup e = none := by
  obtain ⟨e, he, hen⟩ := mapLabels_error_of_missing id2label (logitsRow.map argmaxIdx) h
  exact ⟨e, by simp [processWindow, he], hen⟩

/-- Witness for C9: a two-logit row whose argmax id 1 is missing from the map. -/
theorem unknown_label_id_aborts_witness :
    ∃ e, (processWindow [(0, "O")] "O" [[0, 3]] default).2 = Except.error e ∧
      ([((0 : Nat), "O")] : List (Nat × String)).lookup e = none :=
  unknown_label_id_aborts [(0, "O")] "O" [[0, 3]] default ⟨1, by decide, by decide⟩

/-- Claim C2 (code bug): the span reconstruction emits **no** candidate spans
at all.  At transformer.py line 272, `mask` is the feature's plain Python list
`attention_mask`, so `(mask == 1)` evaluates to the scalar `False` and
`idxKeep = np.where((mask == 1) & idxObject)[0]` is empty for every window.
First conjunct: on every input the per-window result is an error (missing
label id) or the empty span list; second conjunct: at a window whose two
attended positions are predicted `NAME` and `O`, nothing is emitted — in
particular the `NAME` position does not become a candidate span, against the
claimed filtering (which only discards `'O'`).  Beneath this, `idxObject`
marks the positions **equal** to `ignore_label`, the opposite polarity of the
code's own comment "ignore object labels". -/
theorem standoff_emits_no_spans :
    (∀ (id2label : List (Nat × String)) (ignore_label : String)
        (logitsRow : List (List Int)) (f : FeatureL),
      (processWindow id2label ignore_label logitsRow f).2 = Except.ok []
        ∨ ∃ e, (processWindow id2label ignore_label logitsRow f).2 = Except.error e) ∧
    (processWindow [(0, "O"), (1, "NAME")] "O" [[1, 5], [7, 2]]
        ⟨[], [1, 1], [], [false, false], [10, 15], [4, 5]⟩).2 = Except.ok [] := by
  constructor
  · intro id2label ignore_label logitsRow f
    cases h : mapLabels id2label (logitsRow.map argmaxIdx) with
    | error e => exact Or.inr ⟨e, by simp [processWindow, h]⟩
    | ok pred_label =>
      refine Or.inl ?_
      have hfilter : ∀ (l : List Bool),
          (List.range l.length).filter (fun p => false && l.getD p false) = [] :=
        fun l => List.filter_eq_nil_iff.mpr (fun a _ => by simp)
      simp [processWindow, h, hfilter]
  · rfl

/-- Claim C10: the span-reconstruction step updates the feature's `lengths`
field in place during subword length extension (modelled by state passing:
the returned feature carries the extended lengths while its other fields are
unchanged), so a second call over the returned feature operates on — and
extends again — the already-extended lengths. -/
theorem process_window_mutates_lengths (id2label : List (Nat × String))
    (ignore_label : String) (logitsRow : List (List Int)) (f : FeatureL) :
    ((processWindow id2label ignore_label logitsRow f).1).lengths
        = extendLengths f.input_subwords f.lengths ∧
    ((processWindow id2label ignore_label logitsRow f).1).input_subwords = f.input_subwords ∧
    ((processWindow id2label ignore_label logitsRow f).1).offsets = f.offsets ∧
    ((processWindow id2label ignore_label logitsRow f).1).attention_mask = f.attention_mask ∧
    ((processWindow id2label ignore_label logitsRow
        ((processWindow id2label ignore_label logitsRow f).1)).1).lengths
      = extendLengths f.input_subwords (extendLengths f.input_subwords f.lengths) := by
  cases h : mapLabels id2label (logitsRow.map argmaxIdx) <;>
    simp [processWindow, h]

/-- Claim C4 (code bug): `_split_text_into_segments` computes
`seq_len = int((1 - feature_overlap) * L)` but never uses it — supplying an
overlap fraction changes nothing (first conjunct, definitional), and at a
concrete tokenization with `f = 1/2`, `L = 100` the produced segments are the
same character-offset buckets as with no overlap and are pairwise disjoint
(consecutive segments share no characters), so no step size `floor((1-f)*L)`
is in effect and non-edge tokens appear in exactly one window. -/
theorem segment_overlap_fraction_unused :
    (∀ (offsets : List (Nat × Nat)) (token_sw : List Bool) (textLen L : Nat) (f : Rat),
      splitSegBounds offsets token_sw textLen L (some f)
        = splitSegBounds offsets token_sw textLen L none) ∧
    splitSegBounds [(0, 5), (6, 10), (101, 105), (206, 210)] [false, false, false, false]
        300 100 (some (1 / 2)) = [(0, 101), (101, 206), (206, 300)] ∧
    List.Chain' (fun p q : Nat × Nat => p.2 ≤ q.1)
      (splitSegBounds [(0, 5), (6, 10), (101, 105), (206, 210)] [false, false, false, false]
        300 100 (some (1 / 2))) := by
  have h : splitSegBounds [(0, 5), (6, 10), (101, 105), (206, 210)]
      [false, false, false, false] 300 100 (some (1 / 2))
      = [(0, 101), (101, 206), (206, 300)] := by decide
  exact ⟨fun _ _ _ _ _ => rfl, h, by rw [h]; simp [List.chain'_cons]⟩

section SnapLemmas

/-- Folding `max` from `a` equals `max a` of folding from `0`. -/
theorem foldl_max_init (l : List Nat) (a : Nat) :
    l.foldl max a = max a (l.foldl max 0) := by
  induction l generalizing a with
  | nil => simp
  | cons x xs ih =>
    show xs.foldl max (max a x) = max a (xs.foldl max (max 0 x))
    rw [ih (max a x), ih (max 0 x), Nat.zero_max, Nat.max_assoc]

theorem le_foldl_max (l : List Nat) (a : Nat) : a ≤ l.foldl max a := by
  induction l generalizing a with
  | nil => simp
  | cons x xs ih => exact le_trans (Nat.le_max_left a x) (ih (max a x))

theorem foldl_max_le (l : List Nat) (a c : Nat) (ha : a ≤ c) (h : ∀ x ∈ l, x ≤ c) :
    l.foldl max a ≤ c := by
  induction l generalizing a with
  | nil => simpa
  | cons x xs ih =>
    exact ih (max a x) (Nat.max_le.mpr ⟨ha, h x (by simp)⟩) (fun y hy => h y (by simp [hy]))

theorem mem_le_foldl_max (l : List Nat) (a x : Nat) (hx : x ∈ l) : x ≤ l.foldl max a := by
  induction l generalizing a with
  | nil => simp at hx
  | cons y ys ih =>
    rcases List.mem_cons.mp hx with rfl | h
    · exact le_trans (Nat.le_max_right a x) (le_foldl_max ys _)
    · exact ih (max a y) h

/-- The `max`-fold over a list with initial value `0` is `0` or a member. -/
theorem foldl_max_attained (l : List Nat) : l.foldl max 0 = 0 ∨ l.foldl max 0 ∈ l := by
  induction l with
  | nil => left; rfl
  | cons x xs ih =>
    have hx : (x :: xs).foldl max 0 = max x (xs.foldl max 0) := by
      show xs.foldl max (max 0 x) = _
      rw [foldl_max_init, Nat.zero_max]
    rcases Nat.le_total (xs.foldl max 0) x with h | h
    · right
      rw [hx, Nat.max_eq_left h]
      exact List.mem_cons_self x xs
    · rw [hx, Nat.max_eq_right h]
      rcases ih with h0 | hmem
      · left; exact h0
      · right; exact List.mem_cons_of_mem x hmem

theorem cummax_length (m : Nat) (xs : List Nat) : (cummax m xs).length = xs.length := by
  induction xs generalizing m with
  | nil => rfl
  | cons x xs ih => simp [cummax, ih]

/-- Entry `j` of the running maximum is the `max`-fold of the first `j + 1`
entries. -/
theorem cummax_getD (xs : List Nat) (m j : Nat) (hj : j < xs.length) :
    (cummax m xs).getD j 0 = (xs.take (j + 1)).foldl max m := by
  induction xs generalizing m j with
  | nil => simp at hj
  | cons x xs ih =>
    cases j with
    | zero => simp [cummax]
    | succ j =>
      have hj' : j < xs.length := by simpa using hj
      have := ih (max m x) j hj'
      simpa [cummax, List.getD_cons_succ, List.take_succ_cons] using this

theorem idxSource_length (sw : List Bool) : (idxSource sw).length = sw.length := by
  simp [idxSource]

theorem fillIdx_length (sw : List Bool) : (fillIdx sw).length = sw.length := by
  simp [fillIdx, cummax_length, idxSource_length]

/-- Entry lookup of a mapped range below the bound. -/
theorem getD_map_range {α : Type} (n : Nat) (f : Nat → α) (j : Nat) (hj : j < n) (d : α) :
    ((List.range n).map f).getD j d = f j := by
  rw [List.getD_eq_getElem?_getD, List.getElem?_map, List.getElem?_range hj]
  rfl

theorem getD_map_general {α β : Type} (f : α → β) (l : List α) (k : Nat) (d : α)
    (hk : k < l.length) : (l.map f).getD k (f d) = f (l.getD k d) := by
  rw [List.getD_eq_getElem?_getD, List.getElem?_map, List.getElem?_eq_getElem hk,
    List.getD_eq_getElem?_getD, List.getElem?_eq_getElem hk]
  rfl

theorem getD_map_start (tokens : List Tok) (k : Nat) (hk : k < tokens.length) :
    (tokens.map Tok.start).getD k 0 = (tokens.getD k default).start :=
  getD_map_general Tok.start tokens k default hk

theorem getD_map_sw (tokens : List Tok) (k : Nat) (hk : k < tokens.length) :
    (tokens.map Tok.sw).getD k false = (tokens.getD k default).sw :=
  getD_map_general Tok.sw tokens k default hk

theorem fillIdx_getD (sw : List Bool) (j : Nat) (hj : j < sw.length) :
    (fillIdx sw).getD j 0 = ((idxSource sw).take (j + 1)).foldl max 0 := by
  unfold fillIdx
  exact cummax_getD _ 0 j (by simpa [idxSource_length])

/-- Membership characterisation of a prefix of the index-source array. -/
theorem mem_take_idxSource (sw : List Bool) (j x : Nat)
    (hx : x ∈ (idxSource sw).take (j + 1)) :
    ∃ k, k ≤ j ∧ k < sw.length ∧ x = if sw.getD k false then 0 else k := by
  unfold idxSource at hx
  rw [← List.map_take, List.take_range] at hx
  obtain ⟨k, hk, rfl⟩ := List.mem_map.mp hx
  have hk' := List.mem_range.mp hk
  exact ⟨k, by omega, by omega, rfl⟩

/-- A non-continuation index `k ≤ j` contributes its own value `k`. -/
theorem idx_val_mem_take (sw : List Bool) (j k : Nat) (hkj : k ≤ j) (hk : k < sw.length)
    (hnsw : sw.getD k false = false) : k ∈ (idxSource sw).take (j + 1) := by
  unfold idxSource
  rw [← List.map_take, List.take_range]
  refine List.mem_map.mpr ⟨k, List.mem_range.mpr (by omega), ?_⟩
  rw [hnsw]
  simp

theorem fillIdx_le (sw : List Bool) (j : Nat) (hj : j < sw.length) :
    (fillIdx sw).getD j 0 ≤ j := by
  rw [fillIdx_getD sw j hj]
  refine foldl_max_le _ 0 j (Nat.zero_le j) (fun x hx => ?_)
  obtain ⟨k, hkj, -, rfl⟩ := mem_take_idxSource sw j x hx
  split
  · exact Nat.zero_le j
  · exact hkj

theorem fillIdx_mono (sw : List Bool) (i j : Nat) (hij : i ≤ j) (hj : j < sw.length) :
    (fillIdx sw).getD i 0 ≤ (fillIdx sw).getD j 0 := by
  have hi : i < sw.length := Nat.lt_of_le_of_lt hij hj
  rw [fillIdx_getD sw i hi, fillIdx_getD sw j hj]
  have hsplit : (idxSource sw).take (j + 1)
      = (idxSource sw).take (i + 1) ++ ((idxSource sw).drop (i + 1)).take (j - i) := by
    rw [← List.take_add]
    congr 1
    omega
  rw [hsplit, List.foldl_append]
  exact le_foldl_max _ _

theorem fillIdx_self (sw : List Bool) (j : Nat) (hj : j < sw.length)
    (hnsw : sw.getD j false = false) : (fillIdx sw).getD j 0 = j := by
  refine le_antisymm (fillIdx_le sw j hj) ?_
  rw [fillIdx_getD sw j hj]
  exact mem_le_foldl_max _ 0 j (idx_val_mem_take sw j j le_rfl hj hnsw)

/-- Under the tokenizer invariant that token 0 is not a continuation, the
forward-filled index always lands on a non-continuation token. -/
theorem fillIdx_nonsw (sw : List Bool) (h0 : sw.getD 0 false = false) (j : Nat)
    (hj : j < sw.length) : sw.getD ((fillIdx sw).getD j 0) false = false := by
  rw [fillIdx_getD sw j hj]
  rcases foldl_max_attained ((idxSource sw).take (j + 1)) with h | h
  · rw [h]
    exact h0
  · obtain ⟨k, -, -, hval⟩ := mem_take_idxSource sw j _ h
    rw [hval]
    by_cases hswk : sw.getD k false
    · rw [if_pos hswk]
      exact h0
    · rw [if_neg hswk]
      simpa using hswk

/-- No non-continuation token lies strictly between the filled index and `j`. -/
theorem fillIdx_gap (sw : List Bool) (j : Nat) (hj : j < sw.length) (k : Nat)
    (hik : (fillIdx sw).getD j 0 < k) (hkj : k ≤ j) : sw.getD k false = true := by
  by_contra h
  have h' : sw.getD k false = false := by simpa using h
  have hk : k < sw.length := Nat.lt_of_le_of_lt hkj hj
  have : k ≤ (fillIdx sw).getD j 0 := by
    rw [fillIdx_getD sw j hj]
    exact mem_le_foldl_max _ 0 k (idx_val_mem_take sw j k hkj hk h')
  omega

theorem snapStarts_length (tokens : List Tok) :
    (snapStarts tokens).length = tokens.length := by
  simp [snapStarts]

/-- Every snapped start is the original start at the forward-filled index. -/
theorem snapStarts_getD (tokens : List Tok) (j : Nat) (hj : j < tokens.length) :
    (snapStarts tokens).getD j 0
      = (tokens.map Tok.start).getD ((fillIdx (tokens.map Tok.sw)).getD j 0) 0 := by
  have hIf : (snapStarts tokens).getD j 0
      = if (tokens.map Tok.sw).getD j false
        then (tokens.map Tok.start).getD ((fillIdx (tokens.map Tok.sw)).getD j 0) 0
        else (tokens.map Tok.start).getD j 0 := by
    simp only [snapStarts]
    exact getD_map_range tokens.length _ j hj 0
  by_cases hsw : (tokens.map Tok.sw).getD j false
  · rw [hIf, if_pos hsw]
  · rw [hIf, if_neg hsw,
      fillIdx_self (tokens.map Tok.sw) j (by simpa) (by simpa using hsw)]

/-- Every snapped start is some earlier (or equal) token's original start. -/
theorem snap_is_start (tokens : List Tok) (j : Nat) (hj : j < tokens.length) :
    ∃ k, k ≤ j ∧ k < tokens.length ∧
      (snapStarts tokens).getD j 0 = (tokens.getD k default).start := by
  have hlen : (tokens.map Tok.sw).length = tokens.length := by simp
  have hle : (fillIdx (tokens.map Tok.sw)).getD j 0 ≤ j :=
    fillIdx_le (tokens.map Tok.sw) j (by omega)
  refine ⟨(fillIdx (tokens.map Tok.sw)).getD j 0, hle, by omega, ?_⟩
  rw [snapStarts_getD tokens j hj]
  exact getD_map_start tokens _ (by omega)

/-- Monotone token starts give monotone snapped starts. -/
theorem snap_mono (tokens : List Tok)
    (hmono : ∀ j < tokens.length, ∀ i ≤ j,
      (tokens.getD i default).start ≤ (tokens.getD j default).start)
    (i j : Nat) (hij : i ≤ j) (hj : j < tokens.length) :
    (snapStarts tokens).getD i 0 ≤ (snapStarts tokens).getD j 0 := by
  have hi : i < tokens.length := Nat.lt_of_le_of_lt hij hj
  have hlen : (tokens.map Tok.sw).length = tokens.length := by simp
  rw [snapStarts_getD tokens i hi, snapStarts_getD tokens j hj]
  have hfi : (fillIdx (tokens.map Tok.sw)).getD i 0 ≤ (fillIdx (tokens.map Tok.sw)).getD j 0 :=
    fillIdx_mono (tokens.map Tok.sw) i j hij (by omega)
  have hfj : (fillIdx (tokens.map Tok.sw)).getD j 0 ≤ j :=
    fillIdx_le (tokens.map Tok.sw) j (by omega)
  rw [getD_map_start tokens _ (by omega), getD_map_start tokens _ (by omega)]
  exact hmono _ (by omega) _ hfi

/-- Snapped starts are bounded by any bound on the token starts. -/
theorem snap_le_bound (tokens : List Tok) (N : Nat)
    (hbound : ∀ t ∈ tokens, t.start ≤ N) (j : Nat) (hj : j < tokens.length) :
    (snapStarts tokens).getD j 0 ≤ N := by
  obtain ⟨k, -, hk, heq⟩ := snap_is_start tokens j hj
  rw [heq]
  have hg : tokens.getD k default = tokens[k] := by
    rw [List.getD_eq_getElem?_getD, List.getElem?_eq_getElem hk]
    rfl
  rw [hg]
  exact hbound _ (List.getElem_mem hk)

/-- The first snapped start is the first token's original start. -/
theorem snap_zero (tokens : List Tok) (hne : tokens ≠ []) :
    (snapStarts tokens).getD 0 0 = (tokens.headD default).start := by
  have hj : 0 < tokens.length := List.length_pos.mpr hne
  obtain ⟨k, hk0, hk, heq⟩ := snap_is_start tokens 0 hj
  have hk' : k = 0 := Nat.le_zero.mp hk0
  subst hk'
  rw [heq]
  cases tokens with
  | nil => exact absurd rfl hne
  | cons t ts => rfl

end SnapLemmas

section WindowLemmas

/-- The windows built by the enumeration loop carry exactly the offset pairs. -/
theorem mkExamples_forget (text : List Char) (i : Nat) (offs : List (Nat × Nat)) :
    (mkExamples text i offs).map (fun w => (w.start, w.stop)) = offs := by
  induction offs generalizing i with
  | nil => rfl
  | cons p rest ih =>
    cases p with
    | mk a b => simp [mkExamples, ih]

/-- Transfer of start/stop predicates between windows and offset pairs. -/
theorem mem_mkExamples_iff (text : List Char) (i : Nat) (offs : List (Nat × Nat))
    (P : Nat → Nat → Prop) :
    (∃ w ∈ mkExamples text i offs, P w.start w.stop) ↔ ∃ p ∈ offs, P p.1 p.2 := by
  constructor
  · rintro ⟨w, hw, hP⟩
    refine ⟨(w.start, w.stop), ?_, hP⟩
    rw [← mkExamples_forget text i offs]
    exact List.mem_map.mpr ⟨w, hw, rfl⟩
  · rintro ⟨p, hp, hP⟩
    rw [← mkExamples_forget text i offs] at hp
    obtain ⟨w, hw, hwp⟩ := List.mem_map.mp hp
    cases hwp
    exact ⟨w, hw, hP⟩

/-- Membership in the model of `range(0, stop, step)`. -/
theorem rangeStep0_mem (stop step x : Nat) (hstep : 1 ≤ step) :
    x ∈ rangeStep0 stop step ↔ ∃ k, x = k * step ∧ k * step < stop := by
  unfold rangeStep0
  simp only [List.mem_map, List.mem_range]
  constructor
  · rintro ⟨k, hk, rfl⟩
    refine ⟨k, rfl, ?_⟩
    have h1 : k + 1 ≤ (stop + step - 1) / step := hk
    have h2 := (Nat.le_div_iff_mul_le hstep).mp h1
    rw [Nat.succ_mul] at h2
    omega
  · rintro ⟨k, rfl, hlt⟩
    refine ⟨k, ?_, rfl⟩
    have h2 : (k + 1) * step ≤ stop + step - 1 := by
      rw [Nat.succ_mul]
      omega
    exact (Nat.le_div_iff_mul_le hstep).mpr h2

theorem rangeStep0_count (stop step : Nat) (hstop : 1 ≤ stop) (hstep : 1 ≤ step) :
    ∃ m, (stop + step - 1) / step = m + 1 := by
  have h1 : 1 ≤ (stop + step - 1) / step := by
    refine (Nat.le_div_iff_mul_le hstep).mpr ?_
    omega
  exact ⟨(stop + step - 1) / step - 1, by omega⟩

theorem rangeStep0_eq (stop step : Nat) :
    rangeStep0 stop step = (List.range ((stop + step - 1) / step)).map (fun k => k * step) :=
  rfl

theorem rangeStep0_getLastD (stop step m : Nat) (hm : (stop + step - 1) / step = m + 1) :
    (rangeStep0 stop step).getLastD 0 = m * step := by
  rw [rangeStep0_eq, hm, List.range_succ, List.map_append]
  simp [List.getLastD_concat]

theorem headD_append_left {α : Type} (l l' : List α) (d : α) (h : l ≠ []) :
    (l ++ l').headD d = l.headD d := by
  cases l with
  | nil => exact absurd rfl h
  | cons x xs => rfl

theorem getLastD_cons_cons {α : Type} (a b : α) (l : List α) (d : α) :
    (a :: b :: l).getLastD d = (b :: l).getLastD d := rfl

/-- Chained intervals whose last right end is `N` cover everything from the
first left end up to `N`. -/
theorem chain_cover (c N : Nat) :
    ∀ ivs : List (Nat × Nat), ivs ≠ [] →
      List.Chain' (fun p q : Nat × Nat => q.1 ≤ p.2) ivs →
      (ivs.getLastD (0, 0)).2 = N → (ivs.headD (0, 0)).1 ≤ c → c < N →
      ∃ p ∈ ivs, p.1 ≤ c ∧ c < p.2 := by
  intro ivs
  induction ivs with
  | nil => intro h; exact absurd rfl h
  | cons p rest ih =>
    intro _ hchain hlast hhead hc
    by_cases hcp : c < p.2
    · exact ⟨p, List.mem_cons_self p rest, hhead, hcp⟩
    · push_neg at hcp
      cases rest with
      | nil =>
        exfalso
        have : p.2 = N := hlast
        omega
      | cons q rest' =>
        have hq : q.1 ≤ p.2 := (List.chain'_cons.mp hchain).1
        have hchain' := (List.chain'_cons.mp hchain).2
        have hlast' : ((q :: rest').getLastD (0, 0)).2 = N := by
          rw [← getLastD_cons_cons p q rest' (0, 0)]
          exact hlast
        obtain ⟨r, hr, h1, h2⟩ :=
          ih (by simp) hchain' hlast' (le_trans hq hcp) hc
        exact ⟨r, List.mem_cons_of_mem p hr, h1, h2⟩

theorem mem_mkExamples_cover (text : List Char) (i : Nat) (offs : List (Nat × Nat)) (c : Nat) :
    (∃ w ∈ mkExamples text i offs, w.start ≤ c ∧ c < w.stop) ↔
      ∃ p ∈ offs, p.1 ≤ c ∧ c < p.2 :=
  mem_mkExamples_iff text i offs (fun a b => a ≤ c ∧ c < b)

theorem mem_mkExamples_pair (text : List Char) (i : Nat) (offs : List (Nat × Nat))
    (w : Window) (hw : w ∈ mkExamples text i offs) : (w.start, w.stop) ∈ offs := by
  rw [← mkExamples_forget text i offs]
  exact List.mem_map.mpr ⟨w, hw, rfl⟩

end WindowLemmas

/-- Claim C6 (amended): for a text with at least one token and token count at
most `L`, the splitter emits exactly one window, spanning from the **first
token's start offset** (not offset 0) to the end of the text. -/
theorem short_text_single_window (text : List Char) (tokens : List Tok) (S L : Nat)
    (hne : tokens ≠ []) (hlen : tokens.length ≤ L) :
    splitByOverlap text tokens S L
      = [⟨0, (tokens.headD default).start, text.length,
          (text.drop ((tokens.headD default).start)).take
            (text.length - (tokens.headD default).start)⟩] := by
  have hn : tokens.length ≠ 0 := fun h => hne (List.length_eq_zero.mp h)
  simp only [splitByOverlap, if_neg hn, if_pos hlen]
  rw [snap_zero tokens hne]
  rfl

/-- Witness for the amended C6 at text `" a"` with one token starting at 1. -/
theorem short_text_single_window_witness :
    splitByOverlap [' ', 'a'] [⟨1, 2, false⟩] 20 100 = [⟨0, 1, 2, ['a']⟩] := by
  have h := short_text_single_window [' ', 'a'] [⟨1, 2, false⟩] 20 100 (by decide) (by decide)
  rw [h]
  rfl

/-- Claim C6 counterexample: on text `" a"` (length 2) whose single token
starts at offset 1, the unique window has character range `[1, 2)`, not the
whole text `[0, 2)`. -/
theorem short_text_window_not_full_text :
    (splitByOverlap [' ', 'a'] [⟨1, 2, false⟩] 20 100).length = 1 ∧
    ∀ w ∈ splitByOverlap [' ', 'a'] [⟨1, 2, false⟩] 20 100,
      w.start = 1 ∧ w.start ≠ 0 ∧ w.stop = 2 := by decide

/-- Claim C3 counterexample: for the same input, position 0 of the text is
covered by no window, so the union of window ranges is not `[0, N)`. -/
theorem split_windows_not_cover_zero :
    0 < ([' ', 'a'] : List Char).length ∧
    ∀ w ∈ splitByOverlap [' ', 'a'] [⟨1, 2, false⟩] 20 100,
      ¬(w.start ≤ 0 ∧ 0 < w.stop) := by decide

/-- Claim C3 (amended): for a text with at least one token, a positive step
size `S ≤ L`, non-decreasing token start offsets bounded by the text length,
the union of the character ranges of the windows produced by
`split_by_overlap` equals `[s₀, N)` where `s₀` is the **first token's start
offset** and `N` the text length (equal to `[0, N)` exactly when the first
token starts at offset 0). -/
theorem split_windows_cover_from_first_token (text : List Char) (tokens : List Tok)
    (S L : Nat) (hne : tokens ≠ []) (hS : 1 ≤ S) (hSL : S ≤ L)
    (hmono : ∀ j < tokens.length, ∀ i ≤ j,
      (tokens.getD i default).start ≤ (tokens.getD j default).start)
    (hbound : ∀ t ∈ tokens, t.start ≤ text.length) :
    ∀ c : Nat, ((tokens.headD default).start ≤ c ∧ c < text.length) ↔
      ∃ w ∈ splitByOverlap text tokens S L, w.start ≤ c ∧ c < w.stop := by
  intro c
  have hn : tokens.length ≠ 0 := fun h => hne (List.length_eq_zero.mp h)
  have hmonoS : ∀ i j, i ≤ j → j < tokens.length →
      (snapStarts tokens).getD i 0 ≤ (snapStarts tokens).getD j 0 :=
    fun i j hij hj => snap_mono tokens hmono i j hij hj
  have hboundS : ∀ j, j < tokens.length → (snapStarts tokens).getD j 0 ≤ text.length :=
    fun j hj => snap_le_bound tokens text.length hbound j hj
  have hzero : (snapStarts tokens).getD 0 0 = (tokens.headD default).start :=
    snap_zero tokens hne
  by_cases hshort : tokens.length ≤ L
  · have heq : splitByOverlap text tokens S L
        = mkExamples text 0 [((snapStarts tokens).getD 0 0, text.length)] := by
      simp only [splitByOverlap, if_neg hn, if_pos hshort]
    rw [heq, mem_mkExamples_cover]
    constructor
    · rintro ⟨h1, h2⟩
      exact ⟨((snapStarts tokens).getD 0 0, text.length), by simp, by rw [hzero]; exact h1, h2⟩
    · rintro ⟨p, hp, h1, h2⟩
      have hp' : p = ((snapStarts tokens).getD 0 0, text.length) := by simpa using hp
      subst hp'
      exact ⟨by rw [← hzero]; exact h1, h2⟩
  · have hnot : ¬ tokens.length ≤ L := hshort
    have hlong : L < tokens.length := Nat.lt_of_not_le hshort
    have hstop : 1 ≤ tokens.length - L := by omega
    obtain ⟨m, hm⟩ := rangeStep0_count (tokens.length - L) S hstop hS
    have hxs : rangeStep0 (tokens.length - L) S
        = (List.range (m + 1)).map (fun k => k * S) := by
      rw [rangeStep0_eq, hm]
    have hlastx : (rangeStep0 (tokens.length - L) S).getLastD 0 = m * S :=
      rangeStep0_getLastD _ _ m hm
    have hmS : m * S < tokens.length - L := by
      have hmem : m * S ∈ rangeStep0 (tokens.length - L) S := by
        rw [hxs]
        exact List.mem_map.mpr ⟨m, List.mem_range.mpr (by omega), rfl⟩
      obtain ⟨k, hkeq, hk⟩ := (rangeStep0_mem _ _ _ hS).mp hmem
      rw [hkeq]
      exact hk
    have heq : splitByOverlap text tokens S L
        = mkExamples text 0
          ((List.range (m + 1)).map
            (fun k => ((snapStarts tokens).getD (k * S) 0,
              (snapStarts tokens).getD (k * S + L) 0))
            ++ [((snapStarts tokens).getD (m * S + S) 0, text.length)]) := by
      simp only [splitByOverlap, if_neg hn, if_neg hnot]
      rw [hlastx, hxs, List.map_map]
      rfl
    rw [heq, mem_mkExamples_cover]
    have hchain : List.Chain' (fun p q : Nat × Nat => q.1 ≤ p.2)
        ((List.range (m + 1)).map
          (fun k => ((snapStarts tokens).getD (k * S) 0,
            (snapStarts tokens).getD (k * S + L) 0))
          ++ [((snapStarts tokens).getD (m * S + S) 0, text.length)]) := by
      rw [List.chain'_append]
      refine ⟨?_, List.chain'_singleton _, ?_⟩
      · rw [List.chain'_map, List.chain'_range_succ]
        intro k hk
        have h1 : (k + 1) * S ≤ m * S := Nat.mul_le_mul_right S (by omega)
        have h2 : k * S ≤ (k + 1) * S := Nat.mul_le_mul_right S (by omega)
        refine hmonoS ((k + 1) * S) (k * S + L) ?_ (by omega)
        rw [Nat.succ_mul]
        omega
      · intro x hx y hy
        rw [List.range_succ, List.map_append] at hx
        simp only [List.map_cons, List.map_nil, List.getLast?_concat] at hx
        simp only [Option.mem_def, Option.some.injEq] at hx
        simp only [List.head?_cons, Option.mem_def, Option.some.injEq] at hy
        subst hx
        subst hy
        exact hmonoS (m * S + S) (m * S + L) (by omega) (by omega)
    constructor
    · rintro ⟨h1, h2⟩
      refine chain_cover c text.length _ (by simp) hchain ?_ ?_ h2
      · rw [List.getLastD_concat]
      · rw [headD_append_left _ _ _ (by simp), List.range_succ_eq_map]
        simp only [List.map_cons, List.headD_cons]
        rw [Nat.zero_mul, hzero]
        exact h1
    · rintro ⟨p, hp, h1, h2⟩
      rcases List.mem_append.mp hp with hp1 | hp2
      · obtain ⟨k, hk, rfl⟩ := List.mem_map.mp hp1
        have hkm := List.mem_range.mp hk
        have hkS : k * S < tokens.length - L := by
          have h3 : k * S ≤ m * S := Nat.mul_le_mul_right S (by omega)
          omega
        constructor
        · rw [← hzero]
          exact le_trans (hmonoS 0 (k * S) (Nat.zero_le _) (by omega)) h1
        · exact lt_of_lt_of_le h2 (hboundS (k * S + L) (by omega))
      · have hpe : p = ((snapStarts tokens).getD (m * S + S) 0, text.length) := by
          simpa using hp2
        subst hpe
        constructor
        · rw [← hzero]
          exact le_trans (hmonoS 0 (m * S + S) (Nat.zero_le _) (by omega)) h1
        · exact h2

/-- Witness for the amended C3: two tokens, `S = L = 1`, text `"ab"`; the
point `c = 1` lies in the covered range and in some window. -/
theorem split_windows_cover_witness :
    ((0 : Nat) ≤ 1 ∧ 1 < ([('a' : Char), 'b'] : List Char).length) ↔
      ∃ w ∈ splitByOverlap ['a', 'b'] [⟨0, 1, false⟩, ⟨1, 2, false⟩] 1 1,
        w.start ≤ 1 ∧ 1 < w.stop :=
  split_windows_cover_from_first_token ['a', 'b'] [⟨0, 1, false⟩, ⟨1, 2, false⟩] 1 1
    (by decide) (by decide) (by decide) (by decide) (by decide) 1

theorem getD_eq_elem {α : Type} [Inhabited α] (l : List α) (k : Nat) (hk : k < l.length) :
    l.getD k default = l[k] := by
  rw [List.getD_eq_getElem?_getD, List.getElem?_eq_getElem hk]
  rfl

theorem getD_mem_of_lt {α : Type} [Inhabited α] (l : List α) (k : Nat) (hk : k < l.length) :
    l.getD k default ∈ l := by
  rw [getD_eq_elem l k hk]
  exact List.getElem_mem hk

theorem getD_zero_eq_headD {α : Type} [Inhabited α] (l : List α) (h : l ≠ []) :
    l.getD 0 default = l.headD default := by
  cases l with
  | nil => exact absurd rfl h
  | cons x xs => rfl

/-- Every window boundary produced by the splitter is either a snapped token
start or the end of the text. -/
theorem split_boundaries (text : List Char) (tokens : List Tok) (S L : Nat)
    (hS : 1 ≤ S) (hSL : S ≤ L) :
    ∀ w ∈ splitByOverlap text tokens S L,
      (∃ j, j < tokens.length ∧ w.start = (snapStarts tokens).getD j 0) ∧
      (w.stop = text.length ∨
        ∃ j, j < tokens.length ∧ w.stop = (snapStarts tokens).getD j 0) := by
  intro w hw
  by_cases hn : tokens.length = 0
  · simp [splitByOverlap, hn] at hw
  · by_cases hshort : tokens.length ≤ L
    · have heq : splitByOverlap text tokens S L
          = mkExamples text 0 [((snapStarts tokens).getD 0 0, text.length)] := by
        simp only [splitByOverlap, if_neg hn, if_pos hshort]
      rw [heq] at hw
      have hp := mem_mkExamples_pair _ _ _ _ hw
      have hp' : (w.start, w.stop) = ((snapStarts tokens).getD 0 0, text.length) := by
        simpa using hp
      have h1 : w.start = (snapStarts tokens).getD 0 0 := congrArg Prod.fst hp'
      have h2 : w.stop = text.length := congrArg Prod.snd hp'
      exact ⟨⟨0, by omega, h1⟩, Or.inl h2⟩
    · have hlong : L < tokens.length := Nat.lt_of_not_le hshort
      have hstop1 : 1 ≤ tokens.length - L := by omega
      obtain ⟨m, hm⟩ := rangeStep0_count (tokens.length - L) S hstop1 hS
      have hxs : rangeStep0 (tokens.length - L) S
          = (List.range (m + 1)).map (fun k => k * S) := by
        rw [rangeStep0_eq, hm]
      have hlastx : (rangeStep0 (tokens.length - L) S).getLastD 0 = m * S :=
        rangeStep0_getLastD _ _ m hm
      have hmS : m * S < tokens.length - L := by
        have hmem : m * S ∈ rangeStep0 (tokens.length - L) S := by
          rw [hxs]
          exact List.mem_map.mpr ⟨m, List.mem_range.mpr (by omega), rfl⟩
        obtain ⟨k, hkeq, hk⟩ := (rangeStep0_mem _ _ _ hS).mp hmem
        rw [hkeq]
        exact hk
      have heq : splitByOverlap text tokens S L
          = mkExamples text 0
            ((List.range (m + 1)).map
              (fun k => ((snapStarts tokens).getD (k * S) 0,
                (snapStarts tokens).getD (k * S + L) 0))
              ++ [((snapStarts tokens).getD (m * S + S) 0, text.length)]) := by
        simp only [splitByOverlap, if_neg hn, if_neg hshort]
        rw [hlastx, hxs, List.map_map]
        rfl
      rw [heq] at hw
      have hp := mem_mkExamples_pair _ _ _ _ hw
      rcases List.mem_append.mp hp with hp1 | hp2
      · obtain ⟨k, hk, hkeq⟩ := List.mem_map.mp hp1
        have hkm := List.mem_range.mp hk
        have hkS : k * S < tokens.length - L := by
          have h3 : k * S ≤ m * S := Nat.mul_le_mul_right S (by omega)
          omega
        have h1 : w.start = (snapStarts tokens).getD (k * S) 0 :=
          (congrArg Prod.fst hkeq).symm
        have h2 : w.stop = (snapStarts tokens).getD (k * S + L) 0 :=
          (congrArg Prod.snd hkeq).symm
        exact ⟨⟨k * S, by omega, h1⟩, Or.inr ⟨k * S + L, by omega, h2⟩⟩
      · have hpe : (w.start, w.stop)
            = ((snapStarts tokens).getD (m * S + S) 0, text.length) := by
          simpa using hp2
        refine ⟨⟨m * S + S, by omega, congrArg Prod.fst hpe⟩,
          Or.inl (congrArg Prod.snd hpe)⟩

/-- Claim C5: (a) no window boundary (start or stop offset) falls strictly
inside a token marked as a subword continuation, given the tokenizer
invariants that tokens are ordered and disjoint (`stop i ≤ start j` for
`i < j`), well-formed (`start ≤ stop ≤ len(text)`), and that the first token
is not a continuation; and (b) after snapping, a subword-continuation token's
start offset equals the start offset of the nearest preceding non-continuation
token. -/
theorem window_boundaries_subword_safe (text : List Char) (tokens : List Tok)
    (S L : Nat) (hS : 1 ≤ S) (hSL : S ≤ L)
    (hpw : ∀ j < tokens.length, ∀ i < j,
      (tokens.getD i default).stop ≤ (tokens.getD j default).start)
    (hss : ∀ t ∈ tokens, t.start ≤ t.stop)
    (hstop : ∀ t ∈ tokens, t.stop ≤ text.length)
    (hsw0 : (tokens.headD default).sw = false) :
    (∀ w ∈ splitByOverlap text tokens S L, ∀ t ∈ tokens, t.sw = true →
      ¬(t.start < w.start ∧ w.start < t.stop) ∧
      ¬(t.start < w.stop ∧ w.stop < t.stop)) ∧
    (∀ j < tokens.length, (tokens.getD j default).sw = true →
      ∃ i, i ≤ j ∧ (tokens.getD i default).sw = false ∧
        (∀ k, i < k → k ≤ j → (tokens.getD k default).sw = true) ∧
        (snapStarts tokens).getD j 0 = (tokens.getD i default).start) := by
  have hmono : ∀ j < tokens.length, ∀ i ≤ j,
      (tokens.getD i default).start ≤ (tokens.getD j default).start := by
    intro j hj i hij
    rcases Nat.lt_or_ge i j with hlt | hge
    · exact le_trans (hss _ (getD_mem_of_lt tokens i (by omega))) (hpw j hj i hlt)
    · have : i = j := by omega
      subst this
      exact le_rfl
  have hsafe : ∀ b : Nat,
      ((∃ k, k < tokens.length ∧ b = (tokens.getD k default).start) ∨ b = text.length) →
      ∀ t ∈ tokens, ¬(t.start < b ∧ b < t.stop) := by
    rintro b hb t ht ⟨hb1, hb2⟩
    obtain ⟨tIdx, htIdx, rfl⟩ := List.mem_iff_getElem.mp ht
    rw [← getD_eq_elem tokens tIdx htIdx] at hb1 hb2
    rcases hb with ⟨k, hk, rfl⟩ | rfl
    · rcases le_or_lt k tIdx with hle | hlt
      · exact absurd hb1 (not_lt.mpr (hmono tIdx htIdx k hle))
      · exact absurd hb2 (not_lt.mpr (hpw k hk tIdx hlt))
    · exact absurd hb2 (not_lt.mpr (hstop _ (getD_mem_of_lt tokens tIdx htIdx)))
  constructor
  · intro w hw t ht htsw
    obtain ⟨⟨j1, hj1, hstart⟩, hstop'⟩ := split_boundaries text tokens S L hS hSL w hw
    obtain ⟨k1, -, hk1, hs1⟩ := snap_is_start tokens j1 hj1
    constructor
    · refine hsafe w.start (Or.inl ⟨k1, hk1, ?_⟩) t ht
      rw [hstart, hs1]
    · rcases hstop' with hN | ⟨j2, hj2, hstop2⟩
      · exact hsafe w.stop (Or.inr hN) t ht
      · obtain ⟨k2, -, hk2, hs2⟩ := snap_is_start tokens j2 hj2
        refine hsafe w.stop (Or.inl ⟨k2, hk2, ?_⟩) t ht
        rw [hstop2, hs2]
  · intro j hj hswj
    have hlen : (tokens.map Tok.sw).length = tokens.length := by simp
    have hne : tokens ≠ [] := by
      intro h
      rw [h] at hj
      simp at hj
    have h0 : (tokens.map Tok.sw).getD 0 false = false := by
      rw [getD_map_sw tokens 0 (by omega), getD_zero_eq_headD tokens hne]
      exact hsw0
    refine ⟨(fillIdx (tokens.map Tok.sw)).getD j 0,
      fillIdx_le (tokens.map Tok.sw) j (by omega), ?_, ?_, ?_⟩
    · have hfl : (fillIdx (tokens.map Tok.sw)).getD j 0 ≤ j :=
        fillIdx_le (tokens.map Tok.sw) j (by omega)
      have := fillIdx_nonsw (tokens.map Tok.sw) h0 j (by omega)
      rwa [getD_map_sw tokens _ (by omega)] at this
    · intro k hik hkj
      have := fillIdx_gap (tokens.map Tok.sw) j (by omega) k hik hkj
      rwa [getD_map_sw tokens _ (by omega)] at this
    · have hfl : (fillIdx (tokens.map Tok.sw)).getD j 0 ≤ j :=
        fillIdx_le (tokens.map Tok.sw) j (by omega)
      rw [snapStarts_getD tokens j hj]
      exact getD_map_start tokens _ (by omega)

/-- Witness for C5: three tokens, the middle one a continuation, `S = 1`,
`L = 2`, text length 6. -/
theorem window_boundaries_subword_safe_witness :
    (∀ w ∈ splitByOverlap ['a', 'b', 'c', 'd', ' ', 'e']
        [⟨0, 2, false⟩, ⟨2, 4, true⟩, ⟨5, 6, false⟩] 1 2,
      ∀ t ∈ [(⟨0, 2, false⟩ : Tok), ⟨2, 4, true⟩, ⟨5, 6, false⟩], t.sw = true →
      ¬(t.start < w.start ∧ w.start < t.stop) ∧
      ¬(t.start < w.stop ∧ w.stop < t.stop)) ∧
    (∀ j < ([(⟨0, 2, false⟩ : Tok), ⟨2, 4, true⟩, ⟨5, 6, false⟩] : List Tok).length,
      (([(⟨0, 2, false⟩ : Tok), ⟨2, 4, true⟩, ⟨5, 6, false⟩] : List Tok).getD j default).sw
        = true →
      ∃ i, i ≤ j ∧
        (([(⟨0, 2, false⟩ : Tok), ⟨2, 4, true⟩, ⟨5, 6, false⟩] : List Tok).getD i
          default).sw = false ∧
        (∀ k, i < k → k ≤ j →
          (([(⟨0, 2, false⟩ : Tok), ⟨2, 4, true⟩, ⟨5, 6, false⟩] : List Tok).getD k
            default).sw = true) ∧
        (snapStarts [⟨0, 2, false⟩, ⟨2, 4, true⟩, ⟨5, 6, false⟩]).getD j 0
          = (([(⟨0, 2, false⟩ : Tok), ⟨2, 4, true⟩, ⟨5, 6, false⟩] : List Tok).getD i
            default).start) :=
  window_boundaries_subword_safe ['a', 'b', 'c', 'd', ' ', 'e']
    [⟨0, 2, false⟩, ⟨2, 4, true⟩, ⟨5, 6, false⟩] 1 2
    (by decide) (by decide) (by decide) (by decide) (by decide) (by decide)



/-- Claim C8: a text that tokenizes to zero tokens yields an empty window list
(not an error), and downstream an empty candidate list deduplicates to zero
spans. -/
theorem zero_tokens_zero_windows (text : List Char) (S L : Nat) :
    splitByOverlap text [] S L = [] ∧ dedupLastByOffset [] = [] :=
  ⟨rfl, rfl⟩

end BertDeid
